import Mathlib

/-!
Shallow embedding of the Huffman codec implemented in `src/huffman/lib.rs` of the
`rat` crate, together with proofs about its behaviour.

Embedding conventions:

* Rust `u8` byte values are embedded as `Nat` (the code never exploits wrap-around).
* `BitVec<u8>` codewords are embedded as `List Bool`; `push` appends at the end and
  `pop` removes the last element, exactly as for `bitvec::BitVec`.
* `HashMap` tables are embedded as association lists.  An insert conses the new
  binding to the front and lookup returns the newest binding, which reproduces the
  overwrite semantics of `HashMap::insert` / `HashMap::get`.
* `BinaryHeap<(Reverse<usize>, Node)>` is embedded as a list of `Nat × Node`
  entries; `pop` removes the greatest entry under the derived lexicographic order
  on `(Reverse<usize>, Node)`, i.e. the entry with the least count, ties broken by
  the derived `Ord` on `Node` (larger node first).
* A Rust panic (an `expect`/`unwrap` failure, including
  `String::from_utf8(..).unwrap()`) is embedded as `Except.error p` where
  `p : RatPanic` names the panic site.  Rust `&str` values are embedded by their
  byte sequences (`List Nat`); `text.bytes()` is the identity on that embedding.
-/

/-- A node in the Huffman tree: `Root{left, right}` or `Leaf(u8)`
(`lib.rs` lines 13-17). -/
inductive Node where
  | Root (left : Node) (right : Node)
  | Leaf (c : Nat)
deriving DecidableEq, Repr

/-- Codewords: `pub type Codeword = BitVec<u8>` (`lib.rs` line 19). -/
abbrev Codeword := List Bool

/-- The output bundle of encoding (`lib.rs` lines 21-25). -/
structure FileData where
  characters : List Nat
  tree : Codeword
  text : Codeword
deriving DecidableEq, Repr

/-- The panic sites of `lib.rs`, one constructor per `expect`/`unwrap`:
`emptyHeap` is `expect("heap is empty: input text is empty")` (line 59),
`charNotInTree` is `expect("character in text, but not in tree")` (line 140),
`notEnoughChars` is `expect("not enough characters for this tree")` (lines 178, 191),
`popEmpty` is `code.pop().unwrap()` on an empty accumulator (line 181),
`fromUtf8` is `String::from_utf8(bytes).unwrap()` (line 218). -/
inductive RatPanic where
  | emptyHeap
  | charNotInTree
  | notEnoughChars
  | popEmpty
  | fromUtf8
deriving DecidableEq, Repr

/-- The derived `Ord` on `Node` (from `#[derive(PartialOrd, Ord)]`): variants are
compared by declaration index (`Root` before `Leaf`), `Root` fields
lexicographically left-then-right, `Leaf` payloads as `u8`. -/
def Node.cmp : Node → Node → Ordering
  | .Root l1 r1, .Root l2 r2 => (Node.cmp l1 l2).then (Node.cmp r1 r2)
  | .Root _ _, .Leaf _ => .lt
  | .Leaf _, .Root _ _ => .gt
  | .Leaf c1, .Leaf c2 => compare c1 c2

/-- Comparison of heap entries `(Reverse(count), Node)`: a greater result means the
entry is popped earlier by `BinaryHeap::pop` (which removes the greatest item).
`Reverse` flips the count comparison; ties are broken by the node order. -/
def entryCmp (a b : Nat × Node) : Ordering :=
  (compare b.1 a.1).then (Node.cmp a.2 b.2)

/-- The greatest entry of `e :: l` under `entryCmp` (the entry `BinaryHeap::pop`
would remove first). -/
def maxEntry (e : Nat × Node) (l : List (Nat × Node)) : Nat × Node :=
  l.foldl (fun acc y => if entryCmp acc y = .lt then y else acc) e

/-- Remove the first occurrence of an entry from a heap list (entries that compare
equal are identical values, so removing any occurrence is equivalent). -/
def removeEntry : List (Nat × Node) → (Nat × Node) → List (Nat × Node)
  | [], _ => []
  | x :: xs, a => if x = a then xs else x :: removeEntry xs a

/-- Embedding of `BinaryHeap::pop`: remove the greatest entry, returning it and the
remaining heap; `none` on the empty heap. -/
def popMax (l : List (Nat × Node)) : Option ((Nat × Node) × List (Nat × Node)) :=
  match l with
  | [] => none
  | x :: xs => some (maxEntry x xs, removeEntry (x :: xs) (maxEntry x xs))

/-- Embedding of `frequency` (`lib.rs` lines 37-48): count the occurrences of every
distinct byte of the text and collect `(count, Leaf(byte))` heap entries.  The
`HashMap` iteration order is unspecified in Rust; we fix first-occurrence order as
the canonical enumeration and prove below that the tree built from the heap does
not depend on this choice. -/
def frequency (text : List Nat) : List (Nat × Node) :=
  (text.dedup).map (fun c => (text.count c, Node.Leaf c))

/-- The merge loop of `huffman_tree` (`lib.rs` lines 58-67): pop the two greatest
entries (least counts); with a single entry left return its node, on an empty heap
panic, otherwise push the merged `Root` back and repeat.  The `fuel` argument is
only a structural-recursion bound: one merge per unit, so `fuel = heap length` is
always sufficient, and all lemmas about an `.ok` result hold for every fuel. -/
def huffmanLoop : Nat → List (Nat × Node) → Except RatPanic Node
  | fuel, h =>
    match popMax h with
    | none => .error .emptyHeap
    | some (first, h1) =>
      match popMax h1 with
      | none => .ok first.2
      | some (second, h2) =>
        match fuel with
        | 0 => .error .emptyHeap
        | fuel' + 1 => huffmanLoop fuel' ((second.1 + first.1, .Root first.2 second.2) :: h2)

/-- Embedding of `huffman_tree` (`lib.rs` lines 54-68). -/
def huffman_tree (text : List Nat) : Except RatPanic Node :=
  huffmanLoop (frequency text).length (frequency text)

/-- Embedding of the recursive closure `explore_branch` of `huffman_table`
(`lib.rs` lines 77-94), listing the `(character, code)` insertions in traversal
order (left child first, bit `false` for left and `true` for right). -/
def exploreBranch : Node → Codeword → List (Nat × Codeword)
  | .Leaf c, code => [(c, code)]
  | .Root l r, code => exploreBranch l (code ++ [false]) ++ exploreBranch r (code ++ [true])

/-- Embedding of `huffman_table` (`lib.rs` lines 74-98): the `HashMap<u8, Codeword>`
is represented by the association list of insertions. -/
def huffman_table (tree : Node) : List (Nat × Codeword) :=
  exploreBranch tree []

/-- Lookup in a `HashMap<u8, Codeword>` association list; the newest binding wins,
matching `HashMap::insert` overwrite semantics (the table lists insertions in
order, so we search the reversed list). -/
def tableGet (table : List (Nat × Codeword)) (c : Nat) : Option Codeword :=
  (table.reverse.find? (fun e => e.1 == c)).map (fun e => e.2)

/-- Embedding of `huffman_encode_tree` (`lib.rs` lines 109-131): a depth-first
traversal collecting the characters left to right and pushing `false` before the
left subtree and `true` before the right subtree of each `Root`. -/
def huffman_encode_tree : Node → List Nat × Codeword
  | .Leaf c => ([c], [])
  | .Root l r =>
    let el := huffman_encode_tree l
    let er := huffman_encode_tree r
    (el.1 ++ er.1, false :: (el.2 ++ true :: er.2))

/-- Embedding of `huffman_encode_text` (`lib.rs` lines 138-142): look every byte up
in the code table and concatenate the codewords in input order; a missing byte is
the `expect("character in text, but not in tree")` panic. -/
def huffman_encode_text : List Nat → List (Nat × Codeword) → Except RatPanic Codeword
  | [], _ => .ok []
  | c :: rest, code_table =>
    match tableGet code_table c with
    | none => .error .charNotInTree
    | some code =>
      match huffman_encode_text rest code_table with
      | .error e => .error e
      | .ok bits => .ok (code ++ bits)

/-- Embedding of `huffman_encode` (`lib.rs` lines 153-161). -/
def huffman_encode (text : List Nat) : Except RatPanic FileData :=
  match huffman_tree text with
  | .error e => .error e
  | .ok tree =>
    match huffman_encode_text text (huffman_table tree) with
    | .error e => .error e
    | .ok textBits =>
      let ct := huffman_encode_tree tree
      .ok ⟨ct.1, ct.2, textBits⟩

/-- Embedding of the loop `while code.pop().unwrap() {}` followed by
`code.push(true)` is split in two: this function pops trailing `true` bits and the
first `false` bit (the list is processed from the end, hence via `reverse`);
popping an empty accumulator is the `unwrap` panic of `lib.rs` line 181. -/
def dropTruesRev : List Bool → Except RatPanic (List Bool)
  | [] => .error .popEmpty
  | true :: rest => dropTruesRev rest
  | false :: rest => .ok rest

/-- Pop trailing `true` bits and one `false` bit from the accumulator
(`lib.rs` line 181). -/
def popTrues (code : Codeword) : Except RatPanic Codeword :=
  match dropTruesRev code.reverse with
  | .error e => .error e
  | .ok rest => .ok rest.reverse

/-- Lookup in a `HashMap<Codeword, u8>` association list built by consing new
bindings to the front; the first (newest) binding wins. -/
def mapLookup (m : List (Codeword × Nat)) (code : Codeword) : Option Nat :=
  (m.find? (fun e => e.1 == code)).map (fun e => e.2)

/-- The loop of `huffman_decode_tree` (`lib.rs` lines 174-190) followed by the
final insert (line 191), as a recursion over the shape bits.  State: remaining
shape bits, remaining characters (the `characters.iter()` iterator), the
accumulator `code`, and the table built so far (newest binding first). -/
def decodeTreeGo : List Bool → List Nat → Codeword → List (Codeword × Nat) →
    Except RatPanic (List (Codeword × Nat))
  | [], chars, code, result =>
    match chars with
    | [] => .error .notEnoughChars
    | c :: _ => .ok ((code, c) :: result)
  | false :: bits, chars, code, result => decodeTreeGo bits chars (code ++ [false]) result
  | true :: bits, chars, code, result =>
    match chars with
    | [] => .error .notEnoughChars
    | c :: chars' =>
      match popTrues code with
      | .error e => .error e
      | .ok code' => decodeTreeGo bits chars' (code' ++ [true]) ((code, c) :: result)

/-- Embedding of `huffman_decode_tree` (`lib.rs` lines 164-194). -/
def huffman_decode_tree (characters : List Nat) (tree : Codeword) :
    Except RatPanic (List (Codeword × Nat)) :=
  decodeTreeGo tree characters [] []

/-- The decoding loop of `huffman_decode` (`lib.rs` lines 207-216): push each
payload bit onto the accumulator; on a table hit emit the byte and clear the
accumulator.  Returns the emitted bytes and the final accumulator (which the Rust
code silently discards). -/
def decodeTextGo (code_table : List (Codeword × Nat)) :
    List Bool → Codeword → List Nat × Codeword
  | [], code => ([], code)
  | b :: bits, code =>
    match mapLookup code_table (code ++ [b]) with
    | some ch =>
      let r := decodeTextGo code_table bits []
      (ch :: r.1, r.2)
    | none => decodeTextGo code_table bits (code ++ [b])

/-- Whether a byte is a UTF-8 continuation byte (`0x80..=0xBF`). -/
def isCont (b : Nat) : Bool :=
  decide (0x80 ≤ b ∧ b ≤ 0xBF)

/-- UTF-8 validity of a byte sequence, following the checks performed by Rust's
`String::from_utf8` (ASCII, 2-byte `C2..DF`, 3-byte `E0/E1..EC/ED/EE..EF` with
overlong and surrogate exclusions, 4-byte `F0/F1..F3/F4` with range exclusions). -/
def validUtf8 : List Nat → Bool
  | [] => true
  | b :: rest =>
    if b ≤ 0x7F then validUtf8 rest
    else if 0xC2 ≤ b ∧ b ≤ 0xDF then
      match rest with
      | c1 :: rest' => isCont c1 && validUtf8 rest'
      | [] => false
    else if b = 0xE0 then
      match rest with
      | c1 :: c2 :: rest' => decide (0xA0 ≤ c1 ∧ c1 ≤ 0xBF) && isCont c2 && validUtf8 rest'
      | _ => false
    else if (0xE1 ≤ b ∧ b ≤ 0xEC) ∨ (0xEE ≤ b ∧ b ≤ 0xEF) then
      match rest with
      | c1 :: c2 :: rest' => isCont c1 && isCont c2 && validUtf8 rest'
      | _ => false
    else if b = 0xED then
      match rest with
      | c1 :: c2 :: rest' => decide (0x80 ≤ c1 ∧ c1 ≤ 0x9F) && isCont c2 && validUtf8 rest'
      | _ => false
    else if b = 0xF0 then
      match rest with
      | c1 :: c2 :: c3 :: rest' =>
        decide (0x90 ≤ c1 ∧ c1 ≤ 0xBF) && isCont c2 && isCont c3 && validUtf8 rest'
      | _ => false
    else if 0xF1 ≤ b ∧ b ≤ 0xF3 then
      match rest with
      | c1 :: c2 :: c3 :: rest' => isCont c1 && isCont c2 && isCont c3 && validUtf8 rest'
      | _ => false
    else if b = 0xF4 then
      match rest with
      | c1 :: c2 :: c3 :: rest' =>
        decide (0x80 ≤ c1 ∧ c1 ≤ 0x8F) && isCont c2 && isCont c3 && validUtf8 rest'
      | _ => false
    else false

/-- Embedding of `huffman_decode` (`lib.rs` lines 200-219).  The returned `String`
is embedded by its byte sequence; `String::from_utf8(bytes).unwrap()` succeeds with
exactly `bytes` when they are valid UTF-8 and panics otherwise. -/
def huffman_decode (filedata : FileData) : Except RatPanic (List Nat) :=
  match huffman_decode_tree filedata.characters filedata.tree with
  | .error e => .error e
  | .ok code_table =>
    let r := decodeTextGo code_table filedata.text []
    if validUtf8 r.1 then .ok r.1 else .error .fromUtf8

/-- The multiset of leaf symbols of a tree, left to right. -/
def Node.leaves : Node → List Nat
  | .Leaf c => [c]
  | .Root l r => l.leaves ++ r.leaves

/-- Codeword `u` is a prefix of codeword `v`: some suffix `w` satisfies
`u ++ w = v`. -/
def codePre (u v : Codeword) : Prop := ∃ w, u ++ w = v

/-- The inverse mapping of a code table (codeword to symbol), as the specification
describes the decode table: the symbol of the first table entry carrying the given
codeword. -/
def invGet (table : List (Nat × Codeword)) (code : Codeword) : Option Nat :=
  (table.find? (fun e => e.2 == code)).map (fun e => e.1)

/-- The rightmost leaf symbol of a tree. -/
def Node.lastLeaf : Node → Nat
  | .Leaf c => c
  | .Root _ r => r.lastLeaf

/-- The path (all `true` bits) from the root of a tree to its rightmost leaf. -/
def Node.rightPath : Node → Codeword
  | .Leaf _ => []
  | .Root _ r => true :: r.rightPath

/-- All leaf symbols contained in a heap, in entry order. -/
def heapLeaves (h : List (Nat × Node)) : List Nat :=
  (h.map (fun e => e.2.leaves)).flatten

/-- Swap a `(symbol, codeword)` table entry into the `(codeword, symbol)` form
used by the decode table. -/
def swapEntry (e : Nat × Codeword) : Codeword × Nat := (e.2, e.1)

/-- The insertions performed by `huffman_decode_tree` on the encoding of a tree,
oldest first: the swapped entries of the code table rooted at `code`. -/
def insList (t : Node) (code : Codeword) : List (Codeword × Nat) :=
  (exploreBranch t code).map swapEntry

/-- Total weight of a tree: the sum of the occurrence counts of its leaves
(the quantity the heap entries carry alongside each node). -/
def nodeWeight (cnt : Nat → Nat) : Node → Nat
  | .Leaf c => cnt c
  | .Root l r => nodeWeight cnt l + nodeWeight cnt r

/-- The leaf symbols of a tree together with their depths. -/
def leavesD : Node → List (Nat × Nat)
  | .Leaf c => [(c, 0)]
  | .Root l r =>
    (leavesD l).map (fun p => (p.1, p.2 + 1)) ++ (leavesD r).map (fun p => (p.1, p.2 + 1))

/-- All subtrees of a tree, itself included. -/
def subtrees : Node → List Node
  | .Leaf c => [.Leaf c]
  | .Root l r => .Root l r :: (subtrees l ++ subtrees r)

/-- All proper subtrees of a tree (children of internal nodes). -/
def properSub : Node → List Node
  | .Leaf _ => []
  | .Root l r => subtrees l ++ subtrees r

/-- Invariant of the merge loop's heap, for a fixed occurrence-count function
`cnt`.  `weight_eq`: entry weights are tree weights.  `cnt_pos`: all leaf counts
are positive (every distinct byte occurs).  `disj`: distinct entries own disjoint
leaf sets.  `nodup`: entries are pairwise distinct.  `mono_in`: inside each tree,
a strictly more frequent leaf is at most as deep.  `mono_x`: across two distinct
entries, a strictly more frequent leaf is strictly shallower, or at equal depth
the less frequent leaf's entry has strictly higher pop priority.  `sub_le`: every
proper subtree of an entry weighs at most any other entry (merge sums never
decrease).  `sub_ord`: a proper subtree weighing exactly as much as another entry
is strictly greater in the node order (it was popped earlier, and pops prefer
greater nodes on weight ties). -/
structure HeapInv (cnt : Nat → Nat) (H : List (Nat × Node)) : Prop where
  weight_eq : ∀ e ∈ H, e.1 = nodeWeight cnt e.2
  cnt_pos : ∀ e ∈ H, ∀ c ∈ e.2.leaves, 1 ≤ cnt c
  disj : ∀ e ∈ H, ∀ f ∈ H, e ≠ f → ∀ c ∈ e.2.leaves, c ∉ f.2.leaves
  nodup : H.Nodup
  mono_in : ∀ e ∈ H, ∀ p ∈ leavesD e.2, ∀ q ∈ leavesD e.2, cnt q.1 < cnt p.1 → p.2 ≤ q.2
  mono_x : ∀ e ∈ H, ∀ f ∈ H, e ≠ f → ∀ p ∈ leavesD e.2, ∀ q ∈ leavesD f.2,
    cnt q.1 < cnt p.1 → p.2 < q.2 ∨ (p.2 = q.2 ∧ entryCmp e f = .lt)
  sub_le : ∀ e ∈ H, ∀ f ∈ H, e ≠ f → ∀ s ∈ properSub f.2, nodeWeight cnt s ≤ e.1
  sub_ord : ∀ e ∈ H, ∀ f ∈ H, e ≠ f → ∀ s ∈ properSub f.2,
    nodeWeight cnt s = e.1 → Node.cmp e.2 s = .lt

/-- Byte sequence of the string "acab" used by `test_huffman_tree_short`. -/
def acabBytes : List Nat := [97, 99, 97, 98]

/-- Byte sequence of the string "abcd" used by `test_huffman_tree_long`. -/
def abcdBytes : List Nat := [97, 98, 99, 100]

/-- The embedding reproduces `test_huffman_tree_short`: the tree of "acab" is
`Root{left: Leaf(a), right: Root{left: Leaf(c), right: Leaf(b)}}`. -/
theorem huffman_tree_acab :
    huffman_tree acabBytes =
      .ok (.Root (.Leaf 97) (.Root (.Leaf 99) (.Leaf 98))) := by
  rfl

/-- The embedding reproduces `test_huffman_tree_long`: the tree of "abcd" is
`Root{left: Root{d, c}, right: Root{b, a}}`. -/
theorem huffman_tree_abcd :
    huffman_tree abcdBytes =
      .ok (.Root (.Root (.Leaf 100) (.Leaf 99)) (.Root (.Leaf 98) (.Leaf 97))) := by
  rfl

/-- Claim C1 (code bug): the round trip fails on the single-symbol input "a".
Encoding `[97]` succeeds with `FileData{characters: [97], tree: [], text: []}`
(the lone symbol gets the empty codeword, so the payload is empty), and decoding
that `FileData` returns the empty byte sequence, not `[97]`. -/
theorem huffman_roundtrip_single_byte_fails :
    huffman_encode [97] = .ok ⟨[97], [], []⟩ ∧
    (huffman_encode [97]).bind huffman_decode = .ok [] ∧
    ([] : List Nat) ≠ [97] := by
  refine ⟨rfl, rfl, by simp⟩

/-- Claim C2 (code bug): on "aaaa" the tree degenerates to a bare `Leaf` and
`huffman_table` assigns the lone symbol the codeword of length `0`, not the fixed
length-`1` codeword the specification requires; consequently the encoded payload
is empty and decoding returns the empty sequence instead of the original input. -/
theorem huffman_degenerate_zero_length_codeword :
    huffman_tree [97, 97, 97, 97] = .ok (.Leaf 97) ∧
    tableGet (huffman_table (Node.Leaf 97)) 97 = some [] ∧
    huffman_encode [97, 97, 97, 97] = .ok ⟨[97], [], []⟩ ∧
    (huffman_encode [97, 97, 97, 97]).bind huffman_decode = .ok [] := by
  exact ⟨rfl, rfl, rfl, rfl⟩

/-- Claim C4, counterexample: encoding the empty byte sequence does not return an
error value of a dedicated error type — it terminates abnormally: the
`expect("heap is empty: input text is empty")` panic inside `huffman_tree`
(modelled as `Except.error RatPanic.emptyHeap`). -/
theorem huffman_encode_empty_input_panics :
    huffman_encode [] = .error RatPanic.emptyHeap := rfl

/-- Claim C4, amended: on empty input the frequency heap is empty, `huffman_tree`
panics with "heap is empty: input text is empty", and `huffman_encode` therefore
never returns a `FileData` (but the failure is a panic, not an `EmptyInputError`
result value — the code defines no error types at all). -/
theorem huffman_tree_empty_input_no_filedata :
    frequency [] = [] ∧
    huffman_tree [] = .error RatPanic.emptyHeap ∧
    ∀ fd : FileData, huffman_encode [] ≠ .ok fd := by
  refine ⟨rfl, rfl, fun fd h => ?_⟩
  simp [huffman_encode, huffman_tree, frequency, huffmanLoop, popMax] at h

/-- Claim C3, counterexample: a decode call in which the payload bits are
exhausted with the non-empty accumulator `[true]` that matches no codeword of the
decode table `{[false] ↦ 97, [true,false] ↦ 98, [true,true] ↦ 99}`; the decoder
does not fail — it returns the (empty) output, silently dropping the trailing
bit. -/
theorem huffman_decode_truncated_silently_returns :
    huffman_decode_tree [97, 98, 99] [false, true, false, true] =
      .ok [([true, true], 99), ([true, false], 98), ([false], 97)] ∧
    decodeTextGo [([true, true], 99), ([true, false], 98), ([false], 97)]
        [true] [] = ([], [true]) ∧
    mapLookup [([true, true], 99), ([true, false], 98), ([false], 97)]
        [true] = none ∧
    huffman_decode ⟨[97, 98, 99], [false, true, false, true], [true]⟩ = .ok [] := by
  exact ⟨rfl, rfl, rfl, rfl⟩

/-- The accumulator of the decoding loop is never a key of the decode table: it is
cleared the moment it matches, so at every step it is either empty or matches no
codeword. -/
theorem decodeTextGo_acc (table : List (Codeword × Nat)) :
    ∀ (bits : List Bool) (code : Codeword),
      (code = [] ∨ mapLookup table code = none) →
      (decodeTextGo table bits code).2 = [] ∨
        mapLookup table (decodeTextGo table bits code).2 = none := by
  intro bits
  induction bits with
  | nil => intro code h; simpa [decodeTextGo] using h
  | cons b bs ih =>
    intro code h
    cases hl : mapLookup table (code ++ [b]) with
    | some ch =>
      simpa [decodeTextGo, hl] using ih [] (Or.inl rfl)
    | none =>
      simpa [decodeTextGo, hl] using ih (code ++ [b]) (Or.inr hl)

/-- Claim C3, amended: when the payload bits are exhausted while the accumulator
is non-empty, the accumulator indeed matches no codeword, and the decoder
nevertheless succeeds, returning exactly the bytes emitted so far — the trailing
bits are silently discarded and no error of any kind is raised (the code has no
`TruncatedStreamError`).  The UTF-8 hypothesis only reflects the final
`String::from_utf8(..).unwrap()` conversion of the emitted bytes. -/
theorem huffman_decode_discards_trailing_bits
    (chars : List Nat) (shape : Codeword) (text : Codeword)
    (table : List (Codeword × Nat))
    (h1 : huffman_decode_tree chars shape = .ok table)
    (h2 : (decodeTextGo table text []).2 ≠ [])
    (h3 : validUtf8 (decodeTextGo table text []).1 = true) :
    mapLookup table (decodeTextGo table text []).2 = none ∧
    huffman_decode ⟨chars, shape, text⟩ = .ok (decodeTextGo table text []).1 := by
  constructor
  · rcases decodeTextGo_acc table text [] (Or.inl rfl) with h | h
    · exact absurd h h2
    · exact h
  · simp [huffman_decode, h1, h3]

/-- Witness for `huffman_decode_discards_trailing_bits` at the inputs of the
counterexample above. -/
theorem huffman_decode_discards_trailing_bits_witness :
    mapLookup [([true, true], 99), ([true, false], 98), ([false], 97)]
        [true] = none ∧
    huffman_decode ⟨[97, 98, 99], [false, true, false, true], [true]⟩ = .ok [] := by
  simpa using huffman_decode_discards_trailing_bits
    [97, 98, 99] [false, true, false, true] [true]
    [([true, true], 99), ([true, false], 98), ([false], 97)]
    rfl (by decide) rfl

/-- Claim C5, counterexample: the inconsistent pair `(leaves [97, 98], shape [])`
(the empty shape demands exactly one leaf, so the symbol `98` is surplus) does not
fail with any error — `huffman_decode_tree` silently returns the one-entry table
`{[] ↦ 97}`, ignoring the surplus symbol. -/
theorem huffman_decode_tree_surplus_symbols_ok :
    huffman_decode_tree [97, 98] [] = .ok [([], 97)] := rfl

/-- An `.ok` result of the tree-decoding loop consumes one character per `true`
shape bit plus one final character, so the character list must be longer than the
number of `true` bits. -/
theorem decodeTreeGo_ok_length :
    ∀ (bits : List Bool) (chars : List Nat) (code : Codeword)
      (result r : List (Codeword × Nat)),
      decodeTreeGo bits chars code result = .ok r →
      bits.count true + 1 ≤ chars.length := by
  intro bits
  induction bits with
  | nil =>
    intro chars code result r h
    cases chars with
    | nil => simp [decodeTreeGo] at h
    | cons c cs => simp
  | cons b bs ih =>
    intro chars code result r h
    cases b with
    | false =>
      have := ih chars (code ++ [false]) result r (by simpa [decodeTreeGo] using h)
      simpa using this
    | true =>
      cases chars with
      | nil => simp [decodeTreeGo] at h
      | cons c cs =>
        simp only [decodeTreeGo] at h
        cases hp : popTrues code with
        | error e => rw [hp] at h; exact absurd h (by simp)
        | ok code' =>
          rw [hp] at h
          have := ih cs (code' ++ [true]) ((code, c) :: result) r h
          simp [List.count_cons]
          omega

/-- Claim C5, amended: when the shape bits demand more leaves than the character
list supplies, `huffman_decode_tree` terminates abnormally (one of the
`expect`/`unwrap` panics), never with a dedicated `CorruptTreeError` value; the
other inconsistencies (surplus symbols, unclosed shape structure) are silently
accepted, as the counterexample shows. -/
theorem huffman_decode_tree_short_chars_panics
    (chars : List Nat) (bits : Codeword)
    (h : chars.length ≤ bits.count true) :
    ∃ e, huffman_decode_tree chars bits = .error e := by
  cases hd : huffman_decode_tree chars bits with
  | error e => exact ⟨e, rfl⟩
  | ok r =>
    have := decodeTreeGo_ok_length bits chars [] [] r hd
    omega

/-- Witness for `huffman_decode_tree_short_chars_panics`: one character cannot
serve the shape `[true]`, which demands two leaves. -/
theorem huffman_decode_tree_short_chars_panics_witness :
    ∃ e, huffman_decode_tree [97] [true] = .error e :=
  huffman_decode_tree_short_chars_panics [97] [true] (by simp)

/-- Every codeword produced under accumulated code `pre` extends `pre`. -/
theorem exploreBranch_code_shape (t : Node) :
    ∀ (pre : Codeword) (e : Nat × Codeword), e ∈ exploreBranch t pre →
      ∃ s, e.2 = pre ++ s := by
  induction t with
  | Leaf c =>
    intro pre e he
    simp [exploreBranch] at he
    exact ⟨[], by simp [he]⟩
  | Root l r ihl ihr =>
    intro pre e he
    rw [exploreBranch, List.mem_append] at he
    rcases he with he | he
    · obtain ⟨s, hs⟩ := ihl _ e he
      exact ⟨false :: s, by simp [hs]⟩
    · obtain ⟨s, hs⟩ := ihr _ e he
      exact ⟨true :: s, by simp [hs]⟩

/-- The codewords inserted by `explore_branch` are pairwise non-prefixes of each
other: the left subtree continues with a `false` bit where the right subtree
continues with a `true` bit. -/
theorem exploreBranch_pairwise_codePre (t : Node) :
    ∀ pre : Codeword, (exploreBranch t pre).Pairwise
      (fun e1 e2 => ¬ codePre e1.2 e2.2 ∧ ¬ codePre e2.2 e1.2) := by
  induction t with
  | Leaf c => intro pre; simp [exploreBranch]
  | Root l r ihl ihr =>
    intro pre
    rw [exploreBranch, List.pairwise_append]
    refine ⟨ihl _, ihr _, ?_⟩
    intro e1 h1 e2 h2
    obtain ⟨s1, hs1⟩ := exploreBranch_code_shape l (pre ++ [false]) e1 h1
    obtain ⟨s2, hs2⟩ := exploreBranch_code_shape r (pre ++ [true]) e2 h2
    constructor
    · rintro ⟨w, hw⟩
      rw [hs1, hs2] at hw
      simp only [List.append_assoc] at hw
      have := List.append_cancel_left hw
      simp at this
    · rintro ⟨w, hw⟩
      rw [hs1, hs2] at hw
      simp only [List.append_assoc] at hw
      have := List.append_cancel_left hw
      simp at this

/-- A successful `tableGet` exposes a table entry. -/
theorem tableGet_some_mem {table : List (Nat × Codeword)} {c : Nat} {cw : Codeword}
    (h : tableGet table c = some cw) : (c, cw) ∈ table := by
  unfold tableGet at h
  cases hf : table.reverse.find? (fun e => e.1 == c) with
  | none => rw [hf] at h; simp at h
  | some e =>
    rw [hf] at h
    simp at h
    have hm := List.mem_of_find?_eq_some hf
    have hp := List.find?_some hf
    simp at hp
    rw [List.mem_reverse] at hm
    have he : e = (c, cw) := by
      cases e with
      | mk e1 e2 => simp_all
    rwa [he] at hm

/-- Claim C6: no codeword of a table produced by `huffman_table` from a tree built
by `huffman_tree` on non-empty input is a proper prefix of a different codeword of
the same table. -/
theorem huffman_table_prefix_free
    (text : List Nat) (tree : Node)
    (hne : text ≠ []) (ht : huffman_tree text = .ok tree)
    (a b : Nat) (ca cb : Codeword) (hab : a ≠ b)
    (ha : tableGet (huffman_table tree) a = some ca)
    (hb : tableGet (huffman_table tree) b = some cb) :
    ¬ (ca ≠ cb ∧ codePre ca cb) := by
  rintro ⟨-, hpre⟩
  have hma : (a, ca) ∈ exploreBranch tree [] := tableGet_some_mem ha
  have hmb : (b, cb) ∈ exploreBranch tree [] := tableGet_some_mem hb
  have hpw := exploreBranch_pairwise_codePre tree []
  have hsym : Symmetric
      (fun e1 e2 : Nat × Codeword => ¬ codePre e1.2 e2.2 ∧ ¬ codePre e2.2 e1.2) :=
    fun x y hxy => ⟨hxy.2, hxy.1⟩
  have hne' : (a, ca) ≠ (b, cb) := by
    intro h
    exact hab (congrArg Prod.fst h)
  exact (hpw.forall hsym hma hmb hne').1 hpre

/-- Witness for `huffman_table_prefix_free` on the input "ab": the two codewords
are `[false]` and `[true]`, and neither is a prefix of the other. -/
theorem huffman_table_prefix_free_witness :
    ¬ (([false] : Codeword) ≠ [true] ∧ codePre [false] [true]) :=
  huffman_table_prefix_free [97, 98] (.Root (.Leaf 98) (.Leaf 97)) (by simp) rfl
    98 97 [false] [true] (by simp) rfl rfl

/-- Permuting a heap permutes its leaf symbols. -/
theorem heapLeaves_perm {h1 h2 : List (Nat × Node)} (h : h1.Perm h2) :
    (heapLeaves h1).Perm (heapLeaves h2) := by
  unfold heapLeaves
  exact (h.map _).flatten

/-- The greatest entry of `e :: l` is one of its elements. -/
theorem maxEntry_mem : ∀ (l : List (Nat × Node)) (e : Nat × Node),
    maxEntry e l ∈ e :: l := by
  intro l
  induction l with
  | nil => intro e; simp [maxEntry]
  | cons y ys ih =>
    intro e
    have h := ih (if entryCmp e y = .lt then y else e)
    rw [maxEntry, List.foldl_cons]
    rw [maxEntry] at h
    rcases List.mem_cons.mp h with h' | h'
    · rw [h']
      split
      · simp
      · simp
    · simp [h']

/-- An empty pop result characterises the empty heap. -/
theorem popMax_eq_none {l : List (Nat × Node)} : popMax l = none ↔ l = [] := by
  cases l <;> simp [popMax]

/-- Removing a member and putting it in front is a permutation. -/
theorem perm_cons_removeEntry : ∀ (l : List (Nat × Node)) (a : Nat × Node), a ∈ l →
    l.Perm (a :: removeEntry l a) := by
  intro l
  induction l with
  | nil => intro a ha; simp at ha
  | cons x xs ih =>
    intro a ha
    by_cases hax : x = a
    · subst hax
      simp [removeEntry]
    · have hmem : a ∈ xs := by
        rcases List.mem_cons.mp ha with h | h
        · exact absurd h.symm hax
        · exact h
      rw [removeEntry, if_neg hax]
      exact ((ih a hmem).cons x).trans (List.Perm.swap a x _)

/-- Removing an entry that is not present is the identity. -/
theorem removeEntry_of_not_mem : ∀ (l : List (Nat × Node)) (a : Nat × Node), a ∉ l →
    removeEntry l a = l := by
  intro l
  induction l with
  | nil => intro a _; rfl
  | cons x xs ih =>
    intro a ha
    have hax : x ≠ a := fun h => ha (by simp [h])
    rw [removeEntry, if_neg hax, ih a (fun h => ha (by simp [h]))]

/-- Removing the same entry from permuted lists yields permuted lists. -/
theorem perm_removeEntry {l1 l2 : List (Nat × Node)} (hp : l1.Perm l2)
    (a : Nat × Node) : (removeEntry l1 a).Perm (removeEntry l2 a) := by
  by_cases hm : a ∈ l1
  · have hm2 : a ∈ l2 := hp.mem_iff.mp hm
    have h1 := perm_cons_removeEntry l1 a hm
    have h2 := perm_cons_removeEntry l2 a hm2
    exact (h1.symm.trans (hp.trans h2)).cons_inv
  · have hm2 : a ∉ l2 := fun h => hm (hp.mem_iff.mpr h)
    rw [removeEntry_of_not_mem l1 a hm, removeEntry_of_not_mem l2 a hm2]
    exact hp

/-- Popping the greatest entry is a permutation split of the heap. -/
theorem popMax_perm {l : List (Nat × Node)} {m : Nat × Node}
    {rest : List (Nat × Node)} (h : popMax l = some (m, rest)) :
    l.Perm (m :: rest) := by
  cases l with
  | nil => simp [popMax] at h
  | cons x xs =>
    simp only [popMax, Option.some.injEq, Prod.mk.injEq] at h
    obtain ⟨hm, hr⟩ := h
    rw [← hm, ← hr]
    exact perm_cons_removeEntry (x :: xs) _ (maxEntry_mem xs x)

/-- One unfolding step of the merge loop. -/
theorem huffmanLoop_step (fuel : Nat) (h : List (Nat × Node)) :
    huffmanLoop fuel h =
      match popMax h with
      | none => .error .emptyHeap
      | some (first, h1) =>
        match popMax h1 with
        | none => .ok first.2
        | some (second, h2) =>
          match fuel with
          | 0 => .error .emptyHeap
          | fuel' + 1 =>
            huffmanLoop fuel' ((second.1 + first.1, .Root first.2 second.2) :: h2) := by
  rw [huffmanLoop]

/-- The merge loop on an empty heap panics. -/
theorem huffmanLoop_none {fuel : Nat} {h : List (Nat × Node)}
    (hp : popMax h = none) : huffmanLoop fuel h = .error .emptyHeap := by
  rw [huffmanLoop_step, hp]

/-- The merge loop on a one-entry heap returns that entry's node. -/
theorem huffmanLoop_one {fuel : Nat} {h h1 : List (Nat × Node)} {first : Nat × Node}
    (hp : popMax h = some (first, h1)) (hp1 : popMax h1 = none) :
    huffmanLoop fuel h = .ok first.2 := by
  rw [huffmanLoop_step, hp]
  simp only [hp1]

/-- The merge loop with at least two entries and fuel left merges and recurses. -/
theorem huffmanLoop_merge {fuel : Nat} {h h1 h2 : List (Nat × Node)}
    {first second : Nat × Node}
    (hp : popMax h = some (first, h1)) (hp1 : popMax h1 = some (second, h2)) :
    huffmanLoop (fuel + 1) h =
      huffmanLoop fuel ((second.1 + first.1, .Root first.2 second.2) :: h2) := by
  rw [huffmanLoop_step, hp]
  simp only [hp1]

/-- The merge loop with at least two entries and no fuel left stops with an error;
this never happens from `huffman_tree`, whose fuel is the heap length. -/
theorem huffmanLoop_zero_fuel {h h1 h2 : List (Nat × Node)} {first second : Nat × Node}
    (hp : popMax h = some (first, h1)) (hp1 : popMax h1 = some (second, h2)) :
    huffmanLoop 0 h = .error .emptyHeap := by
  rw [huffmanLoop_step, hp]
  simp only [hp1]

/-- The leaf symbols of a tree built by the merge loop are a permutation of the
leaf symbols of the heap it started from. -/
theorem huffmanLoop_leaves :
    ∀ (fuel : Nat) (h : List (Nat × Node)) (t : Node),
      huffmanLoop fuel h = .ok t → t.leaves.Perm (heapLeaves h) := by
  intro fuel
  induction fuel with
  | zero =>
    intro h t ht
    cases hp : popMax h with
    | none => rw [huffmanLoop_none hp] at ht; simp at ht
    | some fr =>
      obtain ⟨first, h1⟩ := fr
      cases hp1 : popMax h1 with
      | none =>
        rw [huffmanLoop_one hp hp1] at ht
        simp only [Except.ok.injEq] at ht
        subst ht
        have e2 : h1 = [] := popMax_eq_none.mp hp1
        subst e2
        have := heapLeaves_perm (popMax_perm hp)
        simpa [heapLeaves] using this.symm
      | some sr =>
        obtain ⟨second, h2⟩ := sr
        rw [huffmanLoop_zero_fuel hp hp1] at ht
        simp at ht
  | succ fuel ih =>
    intro h t ht
    cases hp : popMax h with
    | none => rw [huffmanLoop_none hp] at ht; simp at ht
    | some fr =>
      obtain ⟨first, h1⟩ := fr
      cases hp1 : popMax h1 with
      | none =>
        rw [huffmanLoop_one hp hp1] at ht
        simp only [Except.ok.injEq] at ht
        subst ht
        have e2 : h1 = [] := popMax_eq_none.mp hp1
        subst e2
        have := heapLeaves_perm (popMax_perm hp)
        simpa [heapLeaves] using this.symm
      | some sr =>
        obtain ⟨second, h2⟩ := sr
        rw [huffmanLoop_merge hp hp1] at ht
        have hrec := ih _ t ht
        have e1 := heapLeaves_perm (popMax_perm hp)
        have e2 := heapLeaves_perm (popMax_perm hp1)
        refine hrec.trans ?_
        have hm : heapLeaves ((second.1 + first.1, Node.Root first.2 second.2) :: h2)
            = (first.2.leaves ++ second.2.leaves) ++ heapLeaves h2 := by
          simp [heapLeaves, Node.leaves]
        rw [hm, List.append_assoc]
        have e1' : (heapLeaves h).Perm (first.2.leaves ++ heapLeaves h1) := by
          simpa [heapLeaves] using e1
        have e2' : (heapLeaves h1).Perm (second.2.leaves ++ heapLeaves h2) := by
          simpa [heapLeaves] using e2
        exact (List.Perm.append_left _ e2'.symm).trans e1'.symm

/-- The heap built from a leaf-per-symbol list carries exactly those symbols. -/
theorem heapLeaves_map_leaf (f : Nat → Nat) : ∀ l : List Nat,
    heapLeaves (l.map (fun c => (f c, Node.Leaf c))) = l := by
  intro l
  induction l with
  | nil => rfl
  | cons c cs ih => simpa [heapLeaves, Node.leaves] using ih

/-- The tree built by `huffman_tree` has one leaf per distinct input byte. -/
theorem huffman_tree_leaves {text : List Nat} {t : Node}
    (h : huffman_tree text = .ok t) : t.leaves.Perm text.dedup := by
  have := huffmanLoop_leaves _ _ _ h
  unfold frequency at this
  rwa [heapLeaves_map_leaf] at this

/-- The key list of the code table is the leaf list of the tree. -/
theorem exploreBranch_map_fst (t : Node) :
    ∀ pre, (exploreBranch t pre).map Prod.fst = t.leaves := by
  induction t with
  | Leaf c => intro pre; simp [exploreBranch, Node.leaves]
  | Root l r ihl ihr => intro pre; simp [exploreBranch, Node.leaves, ihl, ihr]

/-- Membership of a key in a table is equivalent to a successful lookup. -/
theorem tableGet_isSome_iff (table : List (Nat × Codeword)) (c : Nat) :
    (tableGet table c).isSome ↔ c ∈ table.map Prod.fst := by
  constructor
  · intro h
    obtain ⟨cw, hcw⟩ := Option.isSome_iff_exists.mp h
    exact List.mem_map.mpr ⟨(c, cw), tableGet_some_mem hcw, rfl⟩
  · intro h
    obtain ⟨e, he, hec⟩ := List.mem_map.mp h
    unfold tableGet
    have hs : (table.reverse.find? (fun x => x.1 == c)).isSome := by
      rw [List.find?_isSome]
      exact ⟨e, List.mem_reverse.mpr he, by simp [hec]⟩
    obtain ⟨x, hx⟩ := Option.isSome_iff_exists.mp hs
    simp [hx]

/-- Encoding text over a table that contains all its bytes never fails. -/
theorem huffman_encode_text_ok_of_keys (tab : List (Nat × Codeword)) :
    ∀ l : List Nat, (∀ c ∈ l, (tableGet tab c).isSome) →
      ∃ bits, huffman_encode_text l tab = .ok bits := by
  intro l
  induction l with
  | nil => exact fun _ => ⟨[], rfl⟩
  | cons c cs ih =>
    intro h
    obtain ⟨code, hcode⟩ := Option.isSome_iff_exists.mp (h c (by simp))
    obtain ⟨bits, hbits⟩ := ih (fun x hx => h x (by simp [hx]))
    exact ⟨code ++ bits, by simp [huffman_encode_text, hcode, hbits]⟩

/-- The merge loop only ever fails with the empty-heap panic. -/
theorem huffmanLoop_error_emptyHeap :
    ∀ (fuel : Nat) (h : List (Nat × Node)) (e : RatPanic),
      huffmanLoop fuel h = .error e → e = .emptyHeap := by
  intro fuel
  induction fuel with
  | zero =>
    intro h e he
    cases hp : popMax h with
    | none =>
      rw [huffmanLoop_none hp] at he
      simp only [Except.error.injEq] at he
      exact he.symm
    | some fr =>
      obtain ⟨first, h1⟩ := fr
      cases hp1 : popMax h1 with
      | none => rw [huffmanLoop_one hp hp1] at he; simp at he
      | some sr =>
        obtain ⟨second, h2⟩ := sr
        rw [huffmanLoop_zero_fuel hp hp1] at he
        simp only [Except.error.injEq] at he
        exact he.symm
  | succ fuel ih =>
    intro h e he
    cases hp : popMax h with
    | none =>
      rw [huffmanLoop_none hp] at he
      simp only [Except.error.injEq] at he
      exact he.symm
    | some fr =>
      obtain ⟨first, h1⟩ := fr
      cases hp1 : popMax h1 with
      | none => rw [huffmanLoop_one hp hp1] at he; simp at he
      | some sr =>
        obtain ⟨second, h2⟩ := sr
        rw [huffmanLoop_merge hp hp1] at he
        exact ih _ _ he

/-- Claim C10: the code table built from the tree of a text contains every byte of
that text, so `huffman_encode_text` succeeds on it, and `huffman_encode` can never
hit the `expect("character in text, but not in tree")` branch, on any input. -/
theorem huffman_encode_no_unknown_symbol (text : List Nat) :
    (∀ tree, huffman_tree text = .ok tree →
      ∀ c ∈ text, (tableGet (huffman_table tree) c).isSome) ∧
    huffman_encode text ≠ .error RatPanic.charNotInTree := by
  have hkey : ∀ tree, huffman_tree text = .ok tree →
      ∀ c ∈ text, (tableGet (huffman_table tree) c).isSome := by
    intro tree ht c hc
    rw [tableGet_isSome_iff, huffman_table, exploreBranch_map_fst]
    exact (huffman_tree_leaves ht).mem_iff.mpr (List.mem_dedup.mpr hc)
  refine ⟨hkey, ?_⟩
  unfold huffman_encode
  cases ht : huffman_tree text with
  | error e =>
    have : e = RatPanic.emptyHeap := huffmanLoop_error_emptyHeap _ _ _ ht
    subst this
    simp
  | ok tree =>
    obtain ⟨bits, hbits⟩ :=
      huffman_encode_text_ok_of_keys (huffman_table tree) text (hkey tree ht)
    simp [hbits]

/-- Witness for `huffman_encode_no_unknown_symbol` on the input "ab". -/
theorem huffman_encode_no_unknown_symbol_witness :
    (tableGet (huffman_table (.Root (.Leaf 98) (.Leaf 97))) 97).isSome ∧
    huffman_encode [97, 98] ≠ .error RatPanic.charNotInTree :=
  ⟨(huffman_encode_no_unknown_symbol [97, 98]).1 _ rfl 97 (by simp),
   (huffman_encode_no_unknown_symbol [97, 98]).2⟩

/-- Swapping the arguments of `Nat.compare` swaps the ordering. -/
theorem natCompare_swap (a b : Nat) : (compare a b).swap = compare b a := by
  rcases Nat.lt_trichotomy a b with h | h | h
  · rw [Nat.compare_eq_lt.mpr h, Nat.compare_eq_gt.mpr h]; rfl
  · subst h; rw [Nat.compare_eq_eq.mpr rfl]; rfl
  · rw [Nat.compare_eq_gt.mpr h, Nat.compare_eq_lt.mpr h]; rfl

/-- Swap distributes over the lexicographic composition of orderings. -/
theorem orderingThen_swap (x y : Ordering) : (x.then y).swap = x.swap.then y.swap := by
  cases x <;> cases y <;> rfl

/-- A lexicographic composition is `eq` exactly when both parts are. -/
theorem orderingThen_eq_eq {x y : Ordering} : x.then y = .eq ↔ x = .eq ∧ y = .eq := by
  cases x <;> cases y <;> simp [Ordering.then]

/-- A lexicographic composition is `lt` exactly when the first part is, or the
first part is `eq` and the second part is `lt`. -/
theorem orderingThen_eq_lt {x y : Ordering} :
    x.then y = .lt ↔ x = .lt ∨ (x = .eq ∧ y = .lt) := by
  cases x <;> cases y <;> simp [Ordering.then]

/-- The derived node order is reflexive-equality-deciding: `eq` means equal. -/
theorem nodeCmp_eq_iff : ∀ a b : Node, a.cmp b = .eq ↔ a = b := by
  intro a
  induction a with
  | Leaf c =>
    intro b
    cases b with
    | Leaf d => simp [Node.cmp, Nat.compare_eq_eq]
    | Root l r => simp [Node.cmp]
  | Root l r ihl ihr =>
    intro b
    cases b with
    | Leaf d => simp [Node.cmp]
    | Root l2 r2 =>
      rw [Node.cmp, orderingThen_eq_eq]
      simp [ihl, ihr]

/-- Swapping the node comparison arguments swaps the ordering. -/
theorem nodeCmp_swap : ∀ a b : Node, (a.cmp b).swap = b.cmp a := by
  intro a
  induction a with
  | Leaf c =>
    intro b
    cases b with
    | Leaf d => rw [Node.cmp, Node.cmp, natCompare_swap]
    | Root l r => rfl
  | Root l r ihl ihr =>
    intro b
    cases b with
    | Leaf d => rfl
    | Root l2 r2 => rw [Node.cmp, Node.cmp, orderingThen_swap, ihl, ihr]

/-- The node comparison is transitive in its strict part. -/
theorem nodeCmp_lt_trans : ∀ {a b c : Node},
    a.cmp b = .lt → b.cmp c = .lt → a.cmp c = .lt := by
  intro a
  induction a with
  | Leaf x =>
    intro b c hab hbc
    cases b with
    | Root _ _ => simp [Node.cmp] at hab
    | Leaf y =>
      cases c with
      | Root _ _ => simp [Node.cmp] at hbc
      | Leaf z =>
        rw [Node.cmp, Nat.compare_eq_lt] at hab hbc ⊢
        exact Nat.lt_trans hab hbc
  | Root l r ihl ihr =>
    intro b c hab hbc
    cases b with
    | Leaf y =>
      cases c with
      | Leaf z => rfl
      | Root _ _ => simp [Node.cmp] at hbc
    | Root l2 r2 =>
      cases c with
      | Leaf z => rfl
      | Root l3 r3 =>
        rw [Node.cmp, orderingThen_eq_lt] at hab hbc ⊢
        rcases hab with h1 | ⟨h1, h1'⟩ <;> rcases hbc with h2 | ⟨h2, h2'⟩
        · exact Or.inl (ihl h1 h2)
        · rw [nodeCmp_eq_iff] at h2; subst h2; exact Or.inl h1
        · rw [nodeCmp_eq_iff] at h1; subst h1; exact Or.inl h2
        · rw [nodeCmp_eq_iff] at h1 h2; subst h1; subst h2
          exact Or.inr ⟨(nodeCmp_eq_iff _ _).mpr rfl, ihr h1' h2'⟩

/-- The heap-entry comparison is `eq` exactly on equal entries. -/
theorem entryCmp_eq_iff (a b : Nat × Node) : entryCmp a b = .eq ↔ a = b := by
  rw [entryCmp, orderingThen_eq_eq, Nat.compare_eq_eq, nodeCmp_eq_iff]
  constructor
  · rintro ⟨h1, h2⟩; exact Prod.ext h1.symm h2
  · rintro rfl; exact ⟨rfl, rfl⟩

/-- Swapping the heap-entry comparison arguments swaps the ordering. -/
theorem entryCmp_swap (a b : Nat × Node) : (entryCmp a b).swap = entryCmp b a := by
  rw [entryCmp, entryCmp, orderingThen_swap, natCompare_swap, nodeCmp_swap]

/-- The heap-entry comparison is transitive in its strict part. -/
theorem entryCmp_lt_trans {a b c : Nat × Node} :
    entryCmp a b = .lt → entryCmp b c = .lt → entryCmp a c = .lt := by
  intro hab hbc
  rw [entryCmp, orderingThen_eq_lt] at hab hbc ⊢
  rcases hab with h1 | ⟨h1, h1'⟩ <;> rcases hbc with h2 | ⟨h2, h2'⟩
  · exact Or.inl (Nat.compare_eq_lt.mpr
      (Nat.lt_trans (Nat.compare_eq_lt.mp h2) (Nat.compare_eq_lt.mp h1)))
  · rw [Nat.compare_eq_eq] at h2; rw [h2]; exact Or.inl h1
  · rw [Nat.compare_eq_eq] at h1
    refine Or.inl (Nat.compare_eq_lt.mpr ?_)
    rw [← h1]
    exact Nat.compare_eq_lt.mp h2
  · rw [Nat.compare_eq_eq] at h1 h2
    refine Or.inr ⟨Nat.compare_eq_eq.mpr (h2.trans h1), nodeCmp_lt_trans h1' h2'⟩

/-- Being at least as great as another entry is transitive. -/
theorem entryCmp_ge_trans {a b c : Nat × Node}
    (hab : entryCmp a b ≠ .lt) (hbc : entryCmp b c ≠ .lt) : entryCmp a c ≠ .lt := by
  intro hac
  cases hcb : entryCmp a b with
  | lt => exact hab hcb
  | eq =>
    rw [entryCmp_eq_iff] at hcb
    subst hcb
    exact hbc hac
  | gt =>
    cases hcc : entryCmp b c with
    | lt => exact hbc hcc
    | eq =>
      rw [entryCmp_eq_iff] at hcc
      subst hcc
      have : entryCmp a b = .lt := hac
      rw [this] at hcb
      exact Ordering.noConfusion hcb
    | gt =>
      have h1 : entryCmp b a = .lt := by rw [← entryCmp_swap a b, hcb]; rfl
      have h2 : entryCmp c b = .lt := by rw [← entryCmp_swap b c, hcc]; rfl
      have h3 : entryCmp c a = .lt := entryCmp_lt_trans h2 h1
      have h4 : entryCmp c a = .gt := by rw [← entryCmp_swap a c, hac]; rfl
      rw [h3] at h4
      exact Ordering.noConfusion h4

/-- The entry chosen by `maxEntry` is at least as great as every heap entry. -/
theorem maxEntry_ge : ∀ (l : List (Nat × Node)) (e : Nat × Node),
    ∀ x ∈ e :: l, entryCmp (maxEntry e l) x ≠ .lt := by
  intro l
  induction l with
  | nil =>
    intro e x hx
    have hxe : x = e := by simpa using hx
    subst hxe
    rw [maxEntry, List.foldl_nil, (entryCmp_eq_iff x x).mpr rfl]
    simp
  | cons y ys ih =>
    intro e x hx
    have hstep : maxEntry e (y :: ys) = maxEntry (if entryCmp e y = .lt then y else e) ys := by
      rw [maxEntry, List.foldl_cons, maxEntry]
    rw [hstep]
    by_cases hey : entryCmp e y = .lt
    · rw [if_pos hey]
      rcases List.mem_cons.mp hx with h | h
      · subst h
        have hy : entryCmp (maxEntry y ys) y ≠ .lt := ih y y (by simp)
        have hyx : entryCmp y x ≠ .lt := by
          rw [← entryCmp_swap x y, hey]
          simp [Ordering.swap]
        exact entryCmp_ge_trans hy hyx
      · exact ih y x h
    · rw [if_neg hey]
      rcases List.mem_cons.mp hx with h | h
      · subst h
        exact ih x x (by simp)
      · rcases List.mem_cons.mp h with h' | h'
        · subst h'
          have he : entryCmp (maxEntry e ys) e ≠ .lt := ih e e (by simp)
          exact entryCmp_ge_trans he hey
        · exact ih e x (by simp [h'])

/-- Any two entries that are both greatest in a list are equal. -/
theorem max_entry_unique {l : List (Nat × Node)} {m1 m2 : Nat × Node}
    (h1 : m1 ∈ l) (h2 : m2 ∈ l)
    (g1 : ∀ x ∈ l, entryCmp m1 x ≠ .lt) (g2 : ∀ x ∈ l, entryCmp m2 x ≠ .lt) :
    m1 = m2 := by
  cases hc : entryCmp m1 m2 with
  | eq => exact (entryCmp_eq_iff _ _).mp hc
  | lt => exact absurd hc (g1 m2 h2)
  | gt =>
    have : entryCmp m2 m1 = .lt := by rw [← entryCmp_swap, hc]; rfl
    exact absurd this (g2 m1 h1)

/-- Popping permuted heaps yields the same greatest entry and permuted rests:
the pop order of `BinaryHeap` does not depend on the insertion order. -/
theorem popMax_perm_congr {l1 l2 : List (Nat × Node)} (hp : l1.Perm l2)
    {m : Nat × Node} {r1 : List (Nat × Node)} (h : popMax l1 = some (m, r1)) :
    ∃ r2, popMax l2 = some (m, r2) ∧ r1.Perm r2 := by
  cases l1 with
  | nil => simp [popMax] at h
  | cons x xs =>
    cases l2 with
    | nil => exact absurd hp.symm (by simp)
    | cons y ys =>
      simp only [popMax, Option.some.injEq, Prod.mk.injEq] at h
      obtain ⟨hm, hr⟩ := h
      have hmem1 : m ∈ x :: xs := hm ▸ maxEntry_mem xs x
      have hge1 : ∀ z ∈ x :: xs, entryCmp m z ≠ .lt := fun z hz =>
        hm ▸ maxEntry_ge xs x z hz
      have hmem2' : maxEntry y ys ∈ y :: ys := maxEntry_mem ys y
      have hge2 : ∀ z ∈ y :: ys, entryCmp (maxEntry y ys) z ≠ .lt := maxEntry_ge ys y
      have hmeq : maxEntry y ys = m := by
        refine max_entry_unique hmem2' (hp.mem_iff.mp hmem1) hge2 ?_
        exact fun z hz => hge1 z (hp.mem_iff.mpr hz)
      refine ⟨removeEntry (y :: ys) m, by simp [popMax, hmeq], ?_⟩
      rw [← hr, hm]
      exact perm_removeEntry hp m

/-- The merge loop is invariant under permuting the heap: ties are resolved by the
total `(Reverse(count), Node)` order, not by the list arrangement. -/
theorem huffmanLoop_perm : ∀ (fuel : Nat) {h1 h2 : List (Nat × Node)}, h1.Perm h2 →
    huffmanLoop fuel h1 = huffmanLoop fuel h2 := by
  intro fuel
  induction fuel with
  | zero =>
    intro h1 h2 hp
    cases hq : popMax h1 with
    | none =>
      have : h1 = [] := popMax_eq_none.mp hq
      subst this
      have : h2 = [] := hp.nil_eq.symm
      subst this
      rfl
    | some fr =>
      obtain ⟨first, r1⟩ := fr
      obtain ⟨r2, hq2, hr⟩ := popMax_perm_congr hp hq
      cases hs : popMax r1 with
      | none =>
        have : r1 = [] := popMax_eq_none.mp hs
        subst this
        have : r2 = [] := hr.nil_eq.symm
        subst this
        rw [huffmanLoop_one hq hs, huffmanLoop_one hq2 (by simp [popMax])]
      | some sr =>
        obtain ⟨second, s1⟩ := sr
        obtain ⟨s2, hs2, _⟩ := popMax_perm_congr hr hs
        rw [huffmanLoop_zero_fuel hq hs, huffmanLoop_zero_fuel hq2 hs2]
  | succ fuel ih =>
    intro h1 h2 hp
    cases hq : popMax h1 with
    | none =>
      have : h1 = [] := popMax_eq_none.mp hq
      subst this
      have : h2 = [] := hp.nil_eq.symm
      subst this
      rfl
    | some fr =>
      obtain ⟨first, r1⟩ := fr
      obtain ⟨r2, hq2, hr⟩ := popMax_perm_congr hp hq
      cases hs : popMax r1 with
      | none =>
        have : r1 = [] := popMax_eq_none.mp hs
        subst this
        have : r2 = [] := hr.nil_eq.symm
        subst this
        rw [huffmanLoop_one hq hs, huffmanLoop_one hq2 (by simp [popMax])]
      | some sr =>
        obtain ⟨second, s1⟩ := sr
        obtain ⟨s2, hs2, hss⟩ := popMax_perm_congr hr hs
        rw [huffmanLoop_merge hq hs, huffmanLoop_merge hq2 hs2]
        exact ih (hss.cons _)

/-- Claim C9: tree construction is deterministic.  The heap may be filled in any
order (Rust's `HashMap` iteration order is unspecified): every enumeration of the
frequency map — any permutation of the canonical frequency list — produces the
identical tree, because pops follow the fixed total `(Reverse(count), Node)`
order; in particular two runs of `huffman_tree` on the same input agree. -/
theorem huffman_tree_deterministic
    (text : List Nat) (heap : List (Nat × Node))
    (hp : heap.Perm (frequency text)) :
    huffmanLoop heap.length heap = huffman_tree text := by
  rw [hp.length_eq]
  exact huffmanLoop_perm _ hp

/-- Witness for `huffman_tree_deterministic` on the input "ab" with the heap
enumerated in the reversed order. -/
theorem huffman_tree_deterministic_witness :
    huffmanLoop [(1, Node.Leaf 98), (1, Node.Leaf 97)].length
      [(1, Node.Leaf 98), (1, Node.Leaf 97)] = huffman_tree [97, 98] :=
  huffman_tree_deterministic [97, 98] [(1, Node.Leaf 98), (1, Node.Leaf 97)]
    (List.Perm.swap (1, Node.Leaf 97) (1, Node.Leaf 98) [])

/-- The character list produced by tree serialization is the left-to-right leaf
list of the tree. -/
theorem huffman_encode_tree_chars : ∀ t : Node, (huffman_encode_tree t).1 = t.leaves := by
  intro t
  induction t with
  | Leaf c => rfl
  | Root l r ihl ihr => simp [huffman_encode_tree, Node.leaves, ihl, ihr]

/-- The path to the rightmost leaf consists of `true` bits only. -/
theorem rightPath_all_true : ∀ t : Node, ∀ b ∈ t.rightPath, b = true := by
  intro t
  induction t with
  | Leaf c => simp [Node.rightPath]
  | Root l r ihl ihr => simpa [Node.rightPath] using ihr

/-- Dropping an all-`true` block followed by one `false` bit. -/
theorem dropTruesRev_trues : ∀ p : List Bool, (∀ b ∈ p, b = true) →
    ∀ y : List Bool, dropTruesRev (p ++ false :: y) = .ok y := by
  intro p
  induction p with
  | nil => intro _ y; rfl
  | cons b bs ih =>
    intro hb y
    have hbt : b = true := hb b (by simp)
    subst hbt
    rw [List.cons_append, dropTruesRev]
    exact ih (fun x hx => hb x (by simp [hx])) y

/-- Popping a `false` bit followed by a right-spine (all `true`) suffix restores
the accumulator that was current before descending. -/
theorem popTrues_rightPath (x : Codeword) (t : Node) :
    popTrues (x ++ false :: t.rightPath) = .ok x := by
  unfold popTrues
  have hrev : (x ++ false :: t.rightPath).reverse =
      t.rightPath.reverse ++ false :: x.reverse := by
    simp
  rw [hrev,
    dropTruesRev_trues _ (fun b hb => rightPath_all_true t b (List.mem_reverse.mp hb)) _]
  simp

/-- The insertion list always ends with the rightmost leaf's entry. -/
theorem insList_decomp : ∀ (t : Node) (pre : Codeword),
    insList t pre = (insList t pre).dropLast ++ [(pre ++ t.rightPath, t.lastLeaf)] := by
  intro t
  induction t with
  | Leaf c =>
    intro pre
    simp [insList, exploreBranch, swapEntry, Node.rightPath, Node.lastLeaf]
  | Root l r ihl ihr =>
    intro pre
    have hsplit : insList (.Root l r) pre =
        insList l (pre ++ [false]) ++ insList r (pre ++ [true]) := by
      simp [insList, exploreBranch]
    rw [hsplit]
    conv_rhs => rw [ihr (pre ++ [true]), ← List.append_assoc, List.dropLast_concat]
    conv_lhs => rw [ihr (pre ++ [true])]
    simp [Node.rightPath, Node.lastLeaf, List.append_assoc]

/-- The reversed inner insertions of a `Root` node decompose into the right
subtree's insertions, the left subtree's rightmost entry, and the left subtree's
inner insertions. -/
theorem insList_root_decomp (l r : Node) (code : Codeword) :
    (insList (.Root l r) code).dropLast.reverse =
      (insList r (code ++ [true])).dropLast.reverse ++
        (((code ++ [false]) ++ l.rightPath, l.lastLeaf) ::
          (insList l (code ++ [false])).dropLast.reverse) := by
  have hsplit : insList (.Root l r) code =
      insList l (code ++ [false]) ++ insList r (code ++ [true]) := by
    simp [insList, exploreBranch]
  rw [hsplit]
  conv_lhs => rw [insList_decomp r (code ++ [true]), ← List.append_assoc,
    List.dropLast_concat, List.reverse_append]
  conv_lhs => rw [insList_decomp l (code ++ [false]), List.reverse_append]
  simp

/-- Step equation: a `false` shape bit descends left. -/
theorem decodeTreeGo_false (bits : List Bool) (chars : List Nat) (code : Codeword)
    (result : List (Codeword × Nat)) :
    decodeTreeGo (false :: bits) chars code result =
      decodeTreeGo bits chars (code ++ [false]) result := rfl

/-- Step equation: a `true` shape bit closes the current leaf. -/
theorem decodeTreeGo_true_step {code code' : Codeword} (bits : List Bool) (c : Nat)
    (chars' : List Nat) (result : List (Codeword × Nat))
    (hpop : popTrues code = .ok code') :
    decodeTreeGo (true :: bits) (c :: chars') code result =
      decodeTreeGo bits chars' (code' ++ [true]) ((code, c) :: result) := by
  simp only [decodeTreeGo, hpop]

/-- The tree-decoding machine, run on the serialization of a tree `t` followed by
arbitrary material, inserts all inner entries of `t` (all but its rightmost leaf),
leaves the rightmost leaf pending, and continues with the accumulator extended by
the right spine of `t`. -/
theorem decodeTreeGo_encode : ∀ (t : Node) (rest : List Bool) (chars' : List Nat)
    (code : Codeword) (result : List (Codeword × Nat)),
    decodeTreeGo ((huffman_encode_tree t).2 ++ rest) (t.leaves ++ chars') code result =
      decodeTreeGo rest (t.lastLeaf :: chars') (code ++ t.rightPath)
        ((insList t code).dropLast.reverse ++ result) := by
  intro t
  induction t with
  | Leaf c =>
    intro rest chars' code result
    simp [huffman_encode_tree, Node.leaves, Node.lastLeaf, Node.rightPath, insList,
      exploreBranch, swapEntry]
  | Root l r ihl ihr =>
    intro rest chars' code result
    show decodeTreeGo
        ((false :: ((huffman_encode_tree l).2 ++ true :: (huffman_encode_tree r).2)) ++ rest)
        ((l.leaves ++ r.leaves) ++ chars') code result = _
    rw [List.cons_append, decodeTreeGo_false,
      List.append_assoc (huffman_encode_tree l).2 _ rest, List.cons_append,
      List.append_assoc l.leaves r.leaves chars',
      ihl (true :: ((huffman_encode_tree r).2 ++ rest)) (r.leaves ++ chars')
        (code ++ [false]) result,
      decodeTreeGo_true_step _ _ _ _ (by
        rw [List.append_assoc]
        exact popTrues_rightPath code l),
      ihr rest chars' (code ++ [true]) _]
    congr 1
    · rw [List.append_assoc]
      rfl
    · rw [insList_root_decomp]
      simp

/-- Decoding the serialization of a tree succeeds and produces exactly the
(reversed) list of code-table insertions, swapped to `(codeword, symbol)` form. -/
theorem huffman_decode_tree_of_encode (t : Node) :
    huffman_decode_tree (huffman_encode_tree t).1 (huffman_encode_tree t).2 =
      .ok ((insList t []).reverse) := by
  unfold huffman_decode_tree
  rw [huffman_encode_tree_chars]
  have h := decodeTreeGo_encode t [] [] [] []
  rw [List.append_nil, List.append_nil] at h
  rw [h]
  simp only [decodeTreeGo]
  conv_rhs => rw [insList_decomp t [], List.reverse_append]
  simp

/-- A successful decode-table lookup exposes a table entry. -/
theorem mapLookup_some_mem {m : List (Codeword × Nat)} {cw : Codeword} {c : Nat}
    (h : mapLookup m cw = some c) : (cw, c) ∈ m := by
  unfold mapLookup at h
  cases hf : m.find? (fun e => e.1 == cw) with
  | none => rw [hf] at h; simp at h
  | some e =>
    rw [hf] at h
    simp at h
    have hm := List.mem_of_find?_eq_some hf
    have hp := List.find?_some hf
    simp at hp
    have he : e = (cw, c) := by
      cases e with
      | mk e1 e2 => simp_all
    rwa [he] at hm

/-- A successful inverse-table lookup exposes a table entry. -/
theorem invGet_some_mem {tab : List (Nat × Codeword)} {cw : Codeword} {c : Nat}
    (h : invGet tab cw = some c) : (c, cw) ∈ tab := by
  unfold invGet at h
  cases hf : tab.find? (fun e => e.2 == cw) with
  | none => rw [hf] at h; simp at h
  | some e =>
    rw [hf] at h
    simp at h
    have hm := List.mem_of_find?_eq_some hf
    have hp := List.find?_some hf
    simp at hp
    have he : e = (c, cw) := by
      cases e with
      | mk e1 e2 => simp_all
    rwa [he] at hm

/-- Two table entries with the same codeword carry the same symbol (codewords are
pairwise non-prefixes, in particular pairwise distinct). -/
theorem exploreBranch_code_inj {t : Node} {pre : Codeword} {c1 c2 : Nat} {cw : Codeword}
    (h1 : (c1, cw) ∈ exploreBranch t pre) (h2 : (c2, cw) ∈ exploreBranch t pre) :
    c1 = c2 := by
  by_contra hne
  have hpw := exploreBranch_pairwise_codePre t pre
  have hsym : Symmetric
      (fun e1 e2 : Nat × Codeword => ¬ codePre e1.2 e2.2 ∧ ¬ codePre e2.2 e1.2) :=
    fun x y hxy => ⟨hxy.2, hxy.1⟩
  have hne' : ((c1, cw) : Nat × Codeword) ≠ (c2, cw) :=
    fun h => hne (congrArg Prod.fst h)
  exact (hpw.forall hsym h1 h2 hne').1 ⟨[], by simp⟩

/-- Lookup in the decoded table agrees with the inverse of the code table. -/
theorem mapLookup_rev_insList (t : Node) (cw : Codeword) :
    mapLookup ((insList t []).reverse) cw = invGet (huffman_table t) cw := by
  cases hm : mapLookup ((insList t []).reverse) cw with
  | some c1 =>
    have hmem1 : (c1, cw) ∈ exploreBranch t [] := by
      have hmem := mapLookup_some_mem hm
      rw [List.mem_reverse] at hmem
      unfold insList at hmem
      obtain ⟨e, he, heq⟩ := List.mem_map.mp hmem
      cases e with
      | mk a b =>
        unfold swapEntry at heq
        simp at heq
        obtain ⟨h1, h2⟩ := heq
        subst h1
        subst h2
        exact he
    cases hv : invGet (huffman_table t) cw with
    | some c2 =>
      have hmem2 : (c2, cw) ∈ exploreBranch t [] := invGet_some_mem hv
      rw [exploreBranch_code_inj hmem1 hmem2]
    | none =>
      exfalso
      unfold invGet at hv
      cases hf : (huffman_table t).find? (fun e => e.2 == cw) with
      | some e => rw [hf] at hv; simp at hv
      | none =>
        have := List.find?_eq_none.mp hf (c1, cw) hmem1
        simp at this
  | none =>
    cases hv : invGet (huffman_table t) cw with
    | none => rfl
    | some c2 =>
      exfalso
      have hmem2 : (c2, cw) ∈ exploreBranch t [] := invGet_some_mem hv
      have hmem : (cw, c2) ∈ (insList t []).reverse := by
        rw [List.mem_reverse]
        exact List.mem_map.mpr ⟨(c2, cw), hmem2, rfl⟩
      unfold mapLookup at hm
      cases hf : ((insList t []).reverse).find? (fun e => e.1 == cw) with
      | some e => rw [hf] at hm; simp at hm
      | none =>
        have := List.find?_eq_none.mp hf (cw, c2) hmem
        simp at this

/-- Claim C8: serializing then deserializing the tree of any non-empty input loses
no coding information — the decode table obtained from
`huffman_decode_tree (huffman_encode_tree tree)` is exactly the inverse mapping
(codeword to symbol) of the code table `huffman_table tree`. -/
theorem huffman_tree_codec_inverse (text : List Nat) (tree : Node)
    (hne : text ≠ []) (ht : huffman_tree text = .ok tree) :
    ∃ dt, huffman_decode_tree (huffman_encode_tree tree).1
        (huffman_encode_tree tree).2 = .ok dt ∧
      ∀ code, mapLookup dt code = invGet (huffman_table tree) code :=
  ⟨(insList tree []).reverse, huffman_decode_tree_of_encode tree,
    fun code => mapLookup_rev_insList tree code⟩

/-- Witness for `huffman_tree_codec_inverse` on the input "ab". -/
theorem huffman_tree_codec_inverse_witness :
    ∃ dt, huffman_decode_tree (huffman_encode_tree (.Root (.Leaf 98) (.Leaf 97))).1
        (huffman_encode_tree (.Root (.Leaf 98) (.Leaf 97))).2 = .ok dt ∧
      ∀ code, mapLookup dt code =
        invGet (huffman_table (.Root (.Leaf 98) (.Leaf 97))) code :=
  huffman_tree_codec_inverse [97, 98] (.Root (.Leaf 98) (.Leaf 97)) (by simp) rfl

/-- Every tree owns at least one leaf. -/
theorem leaves_ne_nil : ∀ n : Node, n.leaves ≠ [] := by
  intro n
  cases n with
  | Leaf c => simp [Node.leaves]
  | Root l r =>
    simp only [Node.leaves]
    intro h
    exact leaves_ne_nil l (List.append_eq_nil.mp h).1

/-- A tree with positive leaf counts has positive weight. -/
theorem nodeWeight_pos (cnt : Nat → Nat) : ∀ n : Node,
    (∀ c ∈ n.leaves, 1 ≤ cnt c) → 1 ≤ nodeWeight cnt n := by
  intro n
  induction n with
  | Leaf c => intro h; exact h c (by simp [Node.leaves])
  | Root l r ihl ihr =>
    intro h
    have := ihl (fun c hc => h c (by simp [Node.leaves, hc]))
    simp [nodeWeight]
    omega

/-- A subtree weighs at most the whole tree. -/
theorem nodeWeight_subtree_le (cnt : Nat → Nat) : ∀ (n s : Node), s ∈ subtrees n →
    nodeWeight cnt s ≤ nodeWeight cnt n := by
  intro n
  induction n with
  | Leaf c =>
    intro s hs
    simp [subtrees] at hs
    simp [hs]
  | Root l r ihl ihr =>
    intro s hs
    simp only [subtrees, List.mem_cons, List.mem_append] at hs
    rcases hs with h | h | h
    · simp [h]
    · calc nodeWeight cnt s ≤ nodeWeight cnt l := ihl s h
        _ ≤ _ := by simp [nodeWeight]
    · calc nodeWeight cnt s ≤ nodeWeight cnt r := ihr s h
        _ ≤ _ := by simp [nodeWeight]

/-- Membership in `subtrees` is the tree itself or a proper subtree. -/
theorem mem_subtrees_iff (n s : Node) : s ∈ subtrees n ↔ s = n ∨ s ∈ properSub n := by
  cases n with
  | Leaf c => simp [subtrees, properSub]
  | Root l r => simp [subtrees, properSub]

/-- Leaf depths are zero exactly on a bare leaf: positive depth forces a `Root`. -/
theorem leavesD_pos_root {n : Node} {q : Nat × Nat} (hq : q ∈ leavesD n)
    (hd : 1 ≤ q.2) : ∃ l r, n = Node.Root l r := by
  cases n with
  | Leaf c =>
    simp [leavesD] at hq
    rw [hq] at hd
    simp at hd
  | Root l r => exact ⟨l, r, rfl⟩

/-- The symbols listed by `leavesD` are the leaf symbols. -/
theorem leavesD_fst_mem : ∀ (n : Node) (p : Nat × Nat), p ∈ leavesD n → p.1 ∈ n.leaves := by
  intro n
  induction n with
  | Leaf c => intro p hp; simp [leavesD] at hp; simp [Node.leaves, hp]
  | Root l r ihl ihr =>
    intro p hp
    simp only [leavesD, List.mem_append, List.mem_map] at hp
    simp only [Node.leaves, List.mem_append]
    rcases hp with ⟨q, hq, hpq⟩ | ⟨q, hq, hpq⟩
    · exact Or.inl (by rw [← hpq]; exact ihl q hq)
    · exact Or.inr (by rw [← hpq]; exact ihr q hq)

/-- The greatest popped entry dominates every heap entry. -/
theorem popMax_ge {l : List (Nat × Node)} {m : Nat × Node} {rest : List (Nat × Node)}
    (h : popMax l = some (m, rest)) : ∀ x ∈ l, entryCmp m x ≠ .lt := by
  cases l with
  | nil => simp [popMax] at h
  | cons y ys =>
    simp only [popMax, Option.some.injEq, Prod.mk.injEq] at h
    obtain ⟨hm, -⟩ := h
    rw [← hm]
    exact maxEntry_ge ys y

/-- A dominated entry has weight at least the dominating entry's weight. -/
theorem weight_le_of_ge {e x : Nat × Node} (h : entryCmp e x ≠ .lt) : e.1 ≤ x.1 := by
  by_contra hlt
  apply h
  rw [entryCmp, orderingThen_eq_lt]
  exact Or.inl (Nat.compare_eq_lt.mpr (by omega))

/-- The initial frequency heap satisfies the merge-loop invariant. -/
theorem heapInv_frequency (text : List Nat) :
    HeapInv (fun c => text.count c) (frequency text) := by
  constructor
  · intro e he
    obtain ⟨c, hc, rfl⟩ := List.mem_map.mp he
    rfl
  · intro e he c' hc'
    obtain ⟨c, hc, rfl⟩ := List.mem_map.mp he
    simp only [Node.leaves, List.mem_singleton] at hc'
    subst hc'
    rcases Nat.eq_zero_or_pos (text.count c') with h0 | h1
    · exact absurd (List.count_eq_zero.mp h0) (by simpa using List.mem_dedup.mp hc)
    · exact h1
  · intro e he f hf hef c' hc1 hc2
    obtain ⟨a, ha, rfl⟩ := List.mem_map.mp he
    obtain ⟨b, hb, rfl⟩ := List.mem_map.mp hf
    simp only [Node.leaves, List.mem_singleton] at hc1 hc2
    subst hc1
    subst hc2
    exact hef rfl
  · refine List.Nodup.map ?_ text.nodup_dedup
    intro c1 c2 h
    simpa using congrArg (fun p : Nat × Node => p.2) h
  · intro e he p hp q hq hlt
    obtain ⟨c, hc, rfl⟩ := List.mem_map.mp he
    simp only [leavesD, List.mem_singleton] at hp hq
    rw [hp, hq] at hlt
    omega
  · intro e he f hf hef p hp q hq hlt
    obtain ⟨a, ha, rfl⟩ := List.mem_map.mp he
    obtain ⟨b, hb, rfl⟩ := List.mem_map.mp hf
    simp only [leavesD, List.mem_singleton] at hp hq
    subst hp
    subst hq
    refine Or.inr ⟨rfl, ?_⟩
    rw [entryCmp, orderingThen_eq_lt]
    exact Or.inl (Nat.compare_eq_lt.mpr (by simpa using hlt))
  · intro e he f hf hef s hs
    obtain ⟨b, hb, rfl⟩ := List.mem_map.mp hf
    simp [properSub] at hs
  · intro e he f hf hef s hs hw
    obtain ⟨b, hb, rfl⟩ := List.mem_map.mp hf
    simp [properSub] at hs

/-- One merge step of the loop preserves the heap invariant: the two popped
entries have the least weights (ties broken towards greater nodes), so the merged
tree keeps all monotonicity clauses. -/
theorem heapInv_merge (cnt : Nat → Nat) {H H1 R : List (Nat × Node)}
    {e1 e2 : Nat × Node}
    (inv : HeapInv cnt H)
    (hp : popMax H = some (e1, H1))
    (hp1 : popMax H1 = some (e2, R)) :
    HeapInv cnt ((e2.1 + e1.1, Node.Root e1.2 e2.2) :: R) := by
  have hperm : H.Perm (e1 :: H1) := popMax_perm hp
  have hperm1 : H1.Perm (e2 :: R) := popMax_perm hp1
  have hmemH : ∀ x ∈ H1, x ∈ H := fun x hx => hperm.mem_iff.mpr (by simp [hx])
  have hmemR : ∀ x ∈ R, x ∈ H1 := fun x hx => hperm1.mem_iff.mpr (by simp [hx])
  have hmemRH : ∀ x ∈ R, x ∈ H := fun x hx => hmemH x (hmemR x hx)
  have he1H : e1 ∈ H := hperm.mem_iff.mpr (by simp)
  have he2H1 : e2 ∈ H1 := hperm1.mem_iff.mpr (by simp)
  have he2H : e2 ∈ H := hmemH e2 he2H1
  have hge1 : ∀ x ∈ H, entryCmp e1 x ≠ .lt := popMax_ge hp
  have hge2 : ∀ x ∈ H1, entryCmp e2 x ≠ .lt := popMax_ge hp1
  have hnodup1 : e1 ∉ H1 ∧ H1.Nodup := by
    simpa using hperm.nodup_iff.mp inv.nodup
  have hnodup2 : e2 ∉ R ∧ R.Nodup := by
    simpa using hperm1.nodup_iff.mp hnodup1.2
  have hne12 : e1 ≠ e2 := fun h => hnodup1.1 (h ▸ he2H1)
  have hne1R : ∀ r ∈ R, e1 ≠ r := fun r hr h => hnodup1.1 (h ▸ hmemR r hr)
  have hne2R : ∀ r ∈ R, e2 ≠ r := fun r hr h => hnodup2.1 (h ▸ hr)
  have hRnodup : R.Nodup := hnodup2.2
  have hwe1 : e1.1 = nodeWeight cnt e1.2 := inv.weight_eq e1 he1H
  have hwe2 : e2.1 = nodeWeight cnt e2.2 := inv.weight_eq e2 he2H
  have hw1R : ∀ r ∈ R, e1.1 ≤ r.1 := fun r hr => weight_le_of_ge (hge1 r (hmemRH r hr))
  have hw2R : ∀ r ∈ R, e2.1 ≤ r.1 := fun r hr => weight_le_of_ge (hge2 r (hmemR r hr))
  constructor
  · intro e he
    rcases List.mem_cons.mp he with rfl | he
    · show e2.1 + e1.1 = nodeWeight cnt (Node.Root e1.2 e2.2)
      rw [nodeWeight, ← hwe1, ← hwe2]
      omega
    · exact inv.weight_eq e (hmemRH e he)
  · intro e he c hc
    rcases List.mem_cons.mp he with rfl | he
    · simp only [Node.leaves, List.mem_append] at hc
      rcases hc with h | h
      · exact inv.cnt_pos e1 he1H c h
      · exact inv.cnt_pos e2 he2H c h
    · exact inv.cnt_pos e (hmemRH e he) c hc
  · intro e he f hf hef c hce hcf
    rcases List.mem_cons.mp he with rfl | he
    · rcases List.mem_cons.mp hf with rfl | hf
      · exact hef rfl
      · simp only [Node.leaves, List.mem_append] at hce
        rcases hce with h | h
        · exact inv.disj e1 he1H f (hmemRH f hf) (hne1R f hf) c h hcf
        · exact inv.disj e2 he2H f (hmemRH f hf) (hne2R f hf) c h hcf
    · rcases List.mem_cons.mp hf with rfl | hf
      · simp only [Node.leaves, List.mem_append] at hcf
        rcases hcf with h | h
        · exact inv.disj e1 he1H e (hmemRH e he) (hne1R e he) c h hce
        · exact inv.disj e2 he2H e (hmemRH e he) (hne2R e he) c h hce
      · exact inv.disj e (hmemRH e he) f (hmemRH f hf) hef c hce hcf
  · refine List.nodup_cons.mpr ⟨?_, hRnodup⟩
    intro hmem
    obtain ⟨c, hc⟩ := List.exists_mem_of_ne_nil _ (leaves_ne_nil e1.2)
    exact inv.disj e1 he1H _ (hmemRH _ hmem) (hne1R _ hmem) c hc
      (by simp [Node.leaves, hc])
  · intro e he p hp q hq hlt
    rcases List.mem_cons.mp he with rfl | he
    · simp only [leavesD, List.mem_append, List.mem_map] at hp hq
      rcases hp with ⟨p', hp', rfl⟩ | ⟨p', hp', rfl⟩ <;>
        rcases hq with ⟨q', hq', rfl⟩ | ⟨q', hq', rfl⟩
      · have := inv.mono_in e1 he1H p' hp' q' hq' (by simpa using hlt)
        simpa using this
      · have := inv.mono_x e1 he1H e2 he2H hne12 p' hp' q' hq' (by simpa using hlt)
        rcases this with h | ⟨h, -⟩ <;> simp <;> omega
      · have := inv.mono_x e2 he2H e1 he1H (Ne.symm hne12) p' hp' q' hq' (by simpa using hlt)
        rcases this with h | ⟨h, -⟩ <;> simp <;> omega
      · have := inv.mono_in e2 he2H p' hp' q' hq' (by simpa using hlt)
        simpa using this
    · exact inv.mono_in e (hmemRH e he) p hp q hq hlt
  · intro e he f hf hef p hp q hq hlt
    rcases List.mem_cons.mp he with rfl | he
    · rcases List.mem_cons.mp hf with rfl | hf
      · exact absurd rfl hef
      · -- the merged tree against a surviving entry
        have hstep : ∀ ei : Nat × Node, ei ∈ H → ei ≠ f → entryCmp ei f ≠ .lt →
            ∀ p' ∈ leavesD ei.2, cnt q.1 < cnt p'.1 →
            p'.2 + 1 < q.2 ∨ (p'.2 + 1 = q.2 ∧
              entryCmp (e2.1 + e1.1, Node.Root e1.2 e2.2) f = .lt) := by
          intro ei heiH hneif hgeif p' hp' hcnt
          rcases inv.mono_x ei heiH f (hmemRH f hf) hneif p' hp' q hq hcnt with
            hlt' | ⟨-, hcontra⟩
          · rcases Nat.lt_or_ge (p'.2 + 1) q.2 with h | h
            · exact Or.inl h
            · have heqd : p'.2 + 1 = q.2 := by omega
              refine Or.inr ⟨heqd, ?_⟩
              obtain ⟨c1, c2, hf2⟩ := leavesD_pos_root hq (by omega)
              have hc1p : c1 ∈ properSub f.2 := by
                rw [hf2, properSub, List.mem_append]
                exact Or.inl ((mem_subtrees_iff c1 c1).mpr (Or.inl rfl))
              have hc2p : c2 ∈ properSub f.2 := by
                rw [hf2, properSub, List.mem_append]
                exact Or.inr ((mem_subtrees_iff c2 c2).mpr (Or.inl rfl))
              have h11 : nodeWeight cnt c1 ≤ e1.1 :=
                inv.sub_le e1 he1H f (hmemRH f hf) (hne1R f hf) c1 hc1p
              have h22 : nodeWeight cnt c2 ≤ e2.1 :=
                inv.sub_le e2 he2H f (hmemRH f hf) (hne2R f hf) c2 hc2p
              have hwf : f.1 = nodeWeight cnt c1 + nodeWeight cnt c2 := by
                rw [inv.weight_eq f (hmemRH f hf), hf2]
                rfl
              rcases Nat.lt_or_ge f.1 (e2.1 + e1.1) with hlt2 | hge2'
              · rw [entryCmp, orderingThen_eq_lt]
                exact Or.inl (Nat.compare_eq_lt.mpr hlt2)
              · have hfeq : f.1 = e2.1 + e1.1 := by omega
                have hc1w : nodeWeight cnt c1 = e1.1 := by omega
                have hord := inv.sub_ord e1 he1H f (hmemRH f hf) (hne1R f hf) c1 hc1p hc1w
                rw [entryCmp, orderingThen_eq_lt]
                refine Or.inr ⟨Nat.compare_eq_eq.mpr hfeq, ?_⟩
                show Node.cmp (Node.Root e1.2 e2.2) f.2 = .lt
                rw [hf2, Node.cmp, orderingThen_eq_lt]
                exact Or.inl hord
          · exact absurd hcontra hgeif
        simp only [leavesD, List.mem_append, List.mem_map] at hp
        rcases hp with ⟨p', hp', rfl⟩ | ⟨p', hp', rfl⟩
        · simpa using hstep e1 he1H (hne1R f hf) (hge1 f (hmemRH f hf)) p' hp'
            (by simpa using hlt)
        · simpa using hstep e2 he2H (hne2R f hf) (hge2 f (hmemR f hf)) p' hp'
            (by simpa using hlt)
    · rcases List.mem_cons.mp hf with rfl | hf
      · -- a surviving entry against the merged tree: one extra level is enough
        simp only [leavesD, List.mem_append, List.mem_map] at hq
        rcases hq with ⟨q', hq', rfl⟩ | ⟨q', hq', rfl⟩
        · have := inv.mono_x e (hmemRH e he) e1 he1H (Ne.symm (hne1R e he)) p hp q' hq'
            (by simpa using hlt)
          rcases this with h | ⟨h, -⟩ <;> exact Or.inl (by simp; omega)
        · have := inv.mono_x e (hmemRH e he) e2 he2H (Ne.symm (hne2R e he)) p hp q' hq'
            (by simpa using hlt)
          rcases this with h | ⟨h, -⟩ <;> exact Or.inl (by simp; omega)
      · exact inv.mono_x e (hmemRH e he) f (hmemRH f hf) hef p hp q hq hlt
  · intro e he f hf hef s hs
    rcases List.mem_cons.mp he with rfl | he
    · rcases List.mem_cons.mp hf with rfl | hf
      · exact absurd rfl hef
      · have := inv.sub_le e1 he1H f (hmemRH f hf) (hne1R f hf) s hs
        show nodeWeight cnt s ≤ e2.1 + e1.1
        omega
    · rcases List.mem_cons.mp hf with rfl | hf
      · simp only [properSub, List.mem_append] at hs
        rcases hs with h | h
        · calc nodeWeight cnt s ≤ nodeWeight cnt e1.2 := nodeWeight_subtree_le cnt _ s h
            _ = e1.1 := hwe1.symm
            _ ≤ e.1 := hw1R e he
        · calc nodeWeight cnt s ≤ nodeWeight cnt e2.2 := nodeWeight_subtree_le cnt _ s h
            _ = e2.1 := hwe2.symm
            _ ≤ e.1 := hw2R e he
      · exact inv.sub_le e (hmemRH e he) f (hmemRH f hf) hef s hs
  · intro e he f hf hef s hs hw
    rcases List.mem_cons.mp he with rfl | he
    · rcases List.mem_cons.mp hf with rfl | hf
      · exact absurd rfl hef
      · exfalso
        have hb := inv.sub_le e1 he1H f (hmemRH f hf) (hne1R f hf) s hs
        have hpos2 : 1 ≤ e2.1 := by
          rw [hwe2]
          exact nodeWeight_pos cnt e2.2 (inv.cnt_pos e2 he2H)
        have hw' : nodeWeight cnt s = e2.1 + e1.1 := hw
        omega
    · rcases List.mem_cons.mp hf with rfl | hf
      · simp only [properSub, List.mem_append] at hs
        rcases hs with h | h
        · rcases (mem_subtrees_iff e1.2 s).mp h with rfl | h'
          · have hww : e.1 = e1.1 := by rw [hwe1, ← hw]
            have hni : entryCmp e1 e ≠ .lt := hge1 e (hmemRH e he)
            have hcmp : Node.cmp e1.2 e.2 ≠ .lt := by
              intro hc
              apply hni
              rw [entryCmp, orderingThen_eq_lt]
              exact Or.inr ⟨Nat.compare_eq_eq.mpr hww, hc⟩
            cases hvc : Node.cmp e1.2 e.2 with
            | lt => exact absurd hvc hcmp
            | eq =>
              exfalso
              have hn : e1.2 = e.2 := (nodeCmp_eq_iff _ _).mp hvc
              exact (hne1R e he) (Prod.ext hww.symm hn)
            | gt =>
              have hsw := nodeCmp_swap e1.2 e.2
              rw [hvc] at hsw
              rw [← hsw]
              rfl
          · exact inv.sub_ord e (hmemRH e he) e1 he1H (Ne.symm (hne1R e he)) s h' hw
        · rcases (mem_subtrees_iff e2.2 s).mp h with rfl | h'
          · have hww : e.1 = e2.1 := by rw [hwe2, ← hw]
            have hni : entryCmp e2 e ≠ .lt := hge2 e (hmemR e he)
            have hcmp : Node.cmp e2.2 e.2 ≠ .lt := by
              intro hc
              apply hni
              rw [entryCmp, orderingThen_eq_lt]
              exact Or.inr ⟨Nat.compare_eq_eq.mpr hww, hc⟩
            cases hvc : Node.cmp e2.2 e.2 with
            | lt => exact absurd hvc hcmp
            | eq =>
              exfalso
              have hn : e2.2 = e.2 := (nodeCmp_eq_iff _ _).mp hvc
              exact (hne2R e he) (Prod.ext hww.symm hn)
            | gt =>
              have hsw := nodeCmp_swap e2.2 e.2
              rw [hvc] at hsw
              rw [← hsw]
              rfl
          · exact inv.sub_ord e (hmemRH e he) e2 he2H (Ne.symm (hne2R e he)) s h' hw
      · exact inv.sub_ord e (hmemRH e he) f (hmemRH f hf) hef s hs hw

/-- The tree built by the merge loop from any heap satisfying the invariant is
depth-monotone: a strictly more frequent leaf is at most as deep. -/
theorem huffmanLoop_mono (cnt : Nat → Nat) :
    ∀ (fuel : Nat) (H : List (Nat × Node)) (t : Node),
      HeapInv cnt H → huffmanLoop fuel H = .ok t →
      ∀ p ∈ leavesD t, ∀ q ∈ leavesD t, cnt q.1 < cnt p.1 → p.2 ≤ q.2 := by
  intro fuel
  induction fuel with
  | zero =>
    intro H t inv ht
    cases hp : popMax H with
    | none => rw [huffmanLoop_none hp] at ht; simp at ht
    | some fr =>
      obtain ⟨first, h1⟩ := fr
      cases hp1 : popMax h1 with
      | none =>
        rw [huffmanLoop_one hp hp1] at ht
        simp only [Except.ok.injEq] at ht
        subst ht
        exact inv.mono_in first ((popMax_perm hp).mem_iff.mpr (by simp))
      | some sr =>
        obtain ⟨second, h2⟩ := sr
        rw [huffmanLoop_zero_fuel hp hp1] at ht
        simp at ht
  | succ fuel ih =>
    intro H t inv ht
    cases hp : popMax H with
    | none => rw [huffmanLoop_none hp] at ht; simp at ht
    | some fr =>
      obtain ⟨first, h1⟩ := fr
      cases hp1 : popMax h1 with
      | none =>
        rw [huffmanLoop_one hp hp1] at ht
        simp only [Except.ok.injEq] at ht
        subst ht
        exact inv.mono_in first ((popMax_perm hp).mem_iff.mpr (by simp))
      | some sr =>
        obtain ⟨second, h2⟩ := sr
        rw [huffmanLoop_merge hp hp1] at ht
        exact ih _ t (heapInv_merge cnt inv hp hp1) ht

/-- A code-table entry built under accumulated code `pre` corresponds to a leaf
whose depth is the codeword length beyond `pre`. -/
theorem exploreBranch_mem_leavesD : ∀ (t : Node) (pre : Codeword) (e : Nat × Codeword),
    e ∈ exploreBranch t pre → (e.1, e.2.length - pre.length) ∈ leavesD t := by
  intro t
  induction t with
  | Leaf c =>
    intro pre e he
    simp only [exploreBranch, List.mem_singleton] at he
    subst he
    simp [leavesD]
  | Root l r ihl ihr =>
    intro pre e he
    rw [exploreBranch, List.mem_append] at he
    simp only [leavesD, List.mem_append, List.mem_map]
    rcases he with he | he
    · refine Or.inl ⟨(e.1, e.2.length - (pre ++ [false]).length), ihl _ e he, ?_⟩
      obtain ⟨s, hs⟩ := exploreBranch_code_shape l (pre ++ [false]) e he
      have hge : (pre ++ [false]).length ≤ e.2.length := by
        rw [hs]; simp
      simp only [Prod.mk.injEq, List.length_append, List.length_cons,
        List.length_nil] at hge ⊢
      refine ⟨trivial, ?_⟩
      omega
    · refine Or.inr ⟨(e.1, e.2.length - (pre ++ [true]).length), ihr _ e he, ?_⟩
      obtain ⟨s, hs⟩ := exploreBranch_code_shape r (pre ++ [true]) e he
      have hge : (pre ++ [true]).length ≤ e.2.length := by
        rw [hs]; simp
      simp only [Prod.mk.injEq, List.length_append, List.length_cons,
        List.length_nil] at hge ⊢
      refine ⟨trivial, ?_⟩
      omega

/-- Claim C7: monotone cost ordering.  For a tree built by `huffman_tree`, if
symbol `a` occurs strictly more often in the input than symbol `b`, then `a`'s
codeword in the table of `huffman_table` is at most as long as `b`'s. -/
theorem huffman_table_monotone
    (text : List Nat) (tree : Node) (ht : huffman_tree text = .ok tree)
    (a b : Nat) (ca cb : Codeword)
    (hain : a ∈ text) (hbin : b ∈ text)
    (ha : tableGet (huffman_table tree) a = some ca)
    (hb : tableGet (huffman_table tree) b = some cb)
    (hcount : text.count b < text.count a) :
    ca.length ≤ cb.length := by
  have hmono := huffmanLoop_mono (fun c => text.count c) (frequency text).length
    (frequency text) tree (heapInv_frequency text) ht
  have hma : (a, ca.length) ∈ leavesD tree := by
    have := exploreBranch_mem_leavesD tree [] (a, ca) (tableGet_some_mem ha)
    simpa using this
  have hmb : (b, cb.length) ∈ leavesD tree := by
    have := exploreBranch_mem_leavesD tree [] (b, cb) (tableGet_some_mem hb)
    simpa using this
  exact hmono (a, ca.length) hma (b, cb.length) hmb hcount

/-- Witness for `huffman_table_monotone` on the input "aaab" (three `a`s, one
`b`): `a`'s codeword `[true]` is not longer than `b`'s codeword `[false]`. -/
theorem huffman_table_monotone_witness :
    ([true] : Codeword).length ≤ ([false] : Codeword).length :=
  huffman_table_monotone [97, 97, 97, 98] (.Root (.Leaf 98) (.Leaf 97)) rfl
    97 98 [true] [false] (by simp) (by simp) rfl rfl (by simp)

/-- Embedding sanity check in the spirit of `test_huffman_decode`: on an input
with more than one distinct byte the round trip does succeed ("acab"). -/
theorem huffman_roundtrip_acab :
    (huffman_encode acabBytes).bind huffman_decode = .ok acabBytes := rfl

/-- Embedding sanity check: round trip on "abcd" (four equally frequent bytes,
all codewords of length two). -/
theorem huffman_roundtrip_abcd :
    (huffman_encode abcdBytes).bind huffman_decode = .ok abcdBytes ∧
    (tableGet (huffman_table (.Root (.Root (.Leaf 100) (.Leaf 99))
      (.Root (.Leaf 98) (.Leaf 97)))) 97).map List.length = some 2 := ⟨rfl, rfl⟩
